import Mathlib

/-!
Shallow embedding of `conventor.py` (class `Conventor`): a YAML-driven
document generator that merges included documents into a namespace,
applies scoped regular-expression macro substitution, renders two-column
reST tables, and composes an index document.

Modelling conventions:
* Python `dict`s are insertion-ordered association lists (`List (String × _)`);
  `{**a, **b}` / `dict.update` become `mergeDicts`, `dict.pop` becomes `popKey`.
* Python's `re.sub` is modelled by a small executable regex engine
  (`reSub`) covering the pattern fragment the program uses: literal
  characters, escape classes (backslash-w, backslash-W, backslash-d, ...),
  bracket character classes, and the greedy `+` quantifier.  Patterns
  outside this fragment fail to compile and `reSub` leaves the text
  unchanged; every concrete pattern appearing in a theorem below is inside
  the fragment.  Replacement strings are taken literally (the program never
  uses back-references).  Character classes are the ASCII reading of
  Python's (the documents involved are ASCII).
* File systems are association lists from resolved absolute paths
  (component lists) to parsed YAML values; `Path.resolve` is lexical
  normalisation of `..` (no symlinks in the model).
* The external collaborators (`prettytable` layout, `docutils` rendering)
  are outside the repository; the prettytable layout is modelled from the
  spec (see `tableString`), and `publish_file` (index.html) is not modelled.
-/

namespace Conventor

/-! ## Regex engine: model of Python `re.sub` for the fragment used -/

/-- ASCII reading of Python's word-character class (backslash-w). -/
def isWordChar (c : Char) : Bool :=
  c.isAlphanum || c = '_'

/-- ASCII reading of Python's whitespace class (backslash-s). -/
def isSpaceChar (c : Char) : Bool :=
  c = ' ' || c = '\t' || c = '\n' || c = '\r' || c = '\x0b' || c = '\x0c'

/-- One item inside a character class (or a bare literal/escape atom). -/
inductive ClsItem where
  | litc (c : Char)
  | wordC
  | nonWordC
  | digitC
  | nonDigitC
  | spaceC
  | nonSpaceC
  deriving DecidableEq

/-- Does a class item accept a character? -/
def ClsItem.hit : ClsItem → Char → Bool
  | .litc a, c => a = c
  | .wordC, c => isWordChar c
  | .nonWordC, c => !(isWordChar c)
  | .digitC, c => c.isDigit
  | .nonDigitC, c => !(c.isDigit)
  | .spaceC, c => isSpaceChar c
  | .nonSpaceC, c => !(isSpaceChar c)

/-- Does a (possibly negated) character class accept a character? -/
def clsHit (neg : Bool) (items : List ClsItem) (c : Char) : Bool :=
  let b := items.any (fun i => i.hit c)
  if neg then !b else b

/-- A regex atom: one occurrence of a class, or a greedy one-or-more run. -/
inductive Atom where
  | once (neg : Bool) (items : List ClsItem)
  | many1 (neg : Bool) (items : List ClsItem)
  deriving DecidableEq

/-- Length of the maximal prefix run of characters accepted by a class. -/
def countRun (neg : Bool) (items : List ClsItem) : List Char → Nat
  | [] => 0
  | c :: rest => if clsHit neg items c then countRun neg items rest + 1 else 0

/-- Backtracking helper for the greedy `+` quantifier: try consuming
`n, n-1, ..., 1` characters and continue with `k` on the remainder. -/
def plusTry (k : List Char → Option (List Char)) : Nat → List Char → Option (List Char)
  | 0, _ => none
  | n + 1, s =>
    match k (s.drop (n + 1)) with
    | some r => some r
    | none => plusTry k n s

/-- Match a sequence of atoms at the start of the input; on success return
the unmatched remainder.  `+` is greedy with backtracking, as in Python. -/
def matchAtoms : List Atom → List Char → Option (List Char)
  | [] => fun s => some s
  | Atom.once neg items :: as => fun s =>
    match s with
    | [] => none
    | c :: t => if clsHit neg items c then matchAtoms as t else none
  | Atom.many1 neg items :: as => fun s =>
    plusTry (matchAtoms as) (countRun neg items s) s

/-- Left-to-right scan of `re.sub`: replace each leftmost non-overlapping
match.  The fuel equals the input length, so it never runs out.  A
zero-width match emits the replacement and advances one character, as
Python does. -/
def subScan (r : List Atom) (repl : List Char) : Nat → List Char → List Char
  | _, [] =>
    match matchAtoms r [] with
    | some _ => repl
    | none => []
  | 0, s => s
  | fuel + 1, c :: t =>
    match matchAtoms r (c :: t) with
    | none => c :: subScan r repl fuel t
    | some rest =>
      if rest.length < t.length + 1 then repl ++ subScan r repl fuel rest
      else repl ++ c :: subScan r repl fuel t

/-- Escape-class meaning of a backslash-escaped character in a pattern. -/
def escCls : Char → Option ClsItem
  | 'w' => some ClsItem.wordC
  | 'W' => some ClsItem.nonWordC
  | 'd' => some ClsItem.digitC
  | 'D' => some ClsItem.nonDigitC
  | 's' => some ClsItem.spaceC
  | 'S' => some ClsItem.nonSpaceC
  | 'n' => some (ClsItem.litc '\n')
  | 't' => some (ClsItem.litc '\t')
  | 'r' => some (ClsItem.litc '\r')
  | c =>
    -- escaped metacharacters stand for themselves
    if c.isAlphanum then none else some (ClsItem.litc c)

/-- Parse the items of a bracket class up to the closing bracket. -/
def parseCls : List Char → Option (List ClsItem × List Char)
  | [] => none
  | ']' :: rest => some ([], rest)
  | '\\' :: c :: rest =>
    match parseCls rest with
    | some (items, r) =>
      match escCls c with
      | some i => some (i :: items, r)
      | none => none
    | none => none
  | c :: rest =>
    match parseCls rest with
    | some (items, r) => some (ClsItem.litc c :: items, r)
    | none => none

/-- Characters that the fragment does not support as bare literals. -/
def isMeta (c : Char) : Bool :=
  c = '.' || c = '*' || c = '+' || c = '?' || c = '(' || c = ')' ||
  c = '|' || c = '^' || c = '$' || c = '{' || c = '}' || c = '[' || c = ']' || c = '\\'

/-- After one class has been parsed, attach an optional `+` quantifier and
continue compiling the rest of the pattern. -/
def compileAux : Nat → List Char → Option (List Atom)
  | _, [] => some []
  | 0, _ => none
  | fuel + 1, cs =>
    let step : Bool × List ClsItem × List Char → Option (List Atom) := fun (neg, items, rest) =>
      match rest with
      | '+' :: rest2 =>
        match compileAux fuel rest2 with
        | some atoms => some (Atom.many1 neg items :: atoms)
        | none => none
      | '*' :: _ => none
      | '?' :: _ => none
      | '{' :: _ => none
      | _ =>
        match compileAux fuel rest with
        | some atoms => some (Atom.once neg items :: atoms)
        | none => none
    match cs with
    | [] => some []
    | '[' :: '^' :: rest =>
      match parseCls rest with
      | some (items, r) => step (true, items, r)
      | none => none
    | '[' :: rest =>
      match parseCls rest with
      | some (items, r) => step (false, items, r)
      | none => none
    | '\\' :: c :: rest =>
      match escCls c with
      | some i => step (false, [i], rest)
      | none => none
    | c :: rest =>
      if isMeta c then none else step (false, [ClsItem.litc c], rest)

/-- Compile a pattern string into the atom fragment; `none` when the
pattern uses regex features outside the fragment. -/
def compile (pat : String) : Option (List Atom) :=
  compileAux (pat.data.length + 1) pat.data

/-- Model of `re.sub(pat, repl, content)` for the supported fragment;
patterns outside the fragment leave the content unchanged (no theorem
below instantiates one). -/
def reSub (pat repl content : String) : String :=
  match compile pat with
  | some r => String.mk (subScan r repl.data content.data.length content.data)
  | none => content

/-! ## Insertion-ordered dictionaries (Python `dict`) -/

/-- First binding of a key, as Python `dict` lookup / `dict.get`. -/
def dictFind (d : List (String × α)) (k : String) : Option α :=
  (d.find? (fun kv => kv.1 == k)).map (fun kv => kv.2)

/-- Python `{**a, **b}` / `a.update(b)`: keys of `a` in their order with
values overridden by `b`, then the new keys of `b` in `b`'s order. -/
def mergeDicts (a b : List (String × α)) : List (String × α) :=
  a.map (fun kv =>
    match dictFind b kv.1 with
    | some v => (kv.1, v)
    | none => kv) ++
  b.filter (fun kv => (dictFind a kv.1).isNone)

/-- Python `dict.pop(k)`: the removed value and the remaining dict in
order; `none` when the key is absent (a `KeyError` in the source). -/
def popKey (k : String) : List (String × α) → Option (α × List (String × α))
  | [] => none
  | (k2, v) :: rest =>
    if k2 = k then some (v, rest)
    else (popKey k rest).map (fun r => (r.1, (k2, v) :: r.2))

/-! ## MacroResolver: `Conventor.macro_substitute` (lines 155-164) -/

/-- `self.macros`: the required `"everywhere"` sub-mapping plus the
scope-named sub-mappings (`self.macros["everywhere"]` raising on absence
is captured by making the field mandatory).  Rule keys are regex pattern
strings, values the replacement strings. -/
structure MacroSet where
  everywhere : List (String × String)
  scopes : List (String × List (String × String))

/-- `{**self.macros["everywhere"], **self.macros.get(section, {})}`. -/
def MacroSet.rulesFor (ms : MacroSet) (scope : String) : List (String × String) :=
  mergeDicts ms.everywhere ((dictFind ms.scopes scope).getD [])

/-- `Conventor.macro_substitute`: every rule of the merged mapping applied
as `re.sub`, sequentially, in the mapping's iteration order. -/
def macroSubstitute (ms : MacroSet) (content : String) (scope : String) : String :=
  (ms.rulesFor scope).foldl (fun c fr => reSub fr.1 fr.2 c) content

/-! ## Parsed YAML values and Python truthiness -/

/-- A parsed YAML value as the program consumes it. -/
inductive Value where
  | null
  | bool (b : Bool)
  | str (s : String)
  | list (items : List Value)
  | dict (entries : List (String × Value))

/-- Python truthiness of a parsed value (`if not contents`, `if hidden`,
`contents.get("__re-sort__", False)` used as a condition). -/
def Value.truthy : Value → Bool
  | .null => false
  | .bool b => b
  | .str s => s != ""
  | .list items => !items.isEmpty
  | .dict entries => !entries.isEmpty

/-- The string content of a value.  Where the source passes a value to
`re.sub` it must already be a `str` (anything else raises `TypeError`);
non-strings are outside the modelled well-formed documents. -/
def Value.asStr : Value → String
  | .str s => s
  | _ => ""

/-- The entries of a mapping value.  Where the source iterates `.keys()` /
`.items()` the value must be a `dict` (anything else raises); non-mappings
are outside the modelled well-formed documents. -/
def Value.entriesD : Value → List (String × Value)
  | .dict entries => entries
  | _ => []

/-! ## TableRenderer: `Conventor.get_rst_table` (lines 82-117) -/

/-- The sort key of line 96: `re.sub("[\W_]+", "", key)` — strip every
character that is not a letter or digit (the class unions the non-word
characters with the underscore, so underscores are stripped too). -/
def sortKey (k : String) : String :=
  reSub "[\\W_]+" "" k

/-- Code-point lexicographic order on character lists — Python's `str`
comparison used by `sorted`. -/
def charLe : List Char → List Char → Bool
  | [], _ => true
  | _ :: _, [] => false
  | a :: as, b :: bs =>
    if a.toNat < b.toNat then true
    else if b.toNat < a.toNat then false
    else charLe as bs

/-- The comparison `sorted(all_keys, key=lambda key: re.sub("[\W_]+", "", key))`
sorts by. -/
def keyLe (a b : String) : Bool :=
  charLe (sortKey a).data (sortKey b).data

/-- Insert into a sorted list, before the first element not ≤ it — the
stable insertion used by `sortBy`. -/
def insSorted (le : α → α → Bool) (x : α) : List α → List α
  | [] => [x]
  | y :: ys => if le x y then x :: y :: ys else y :: insSorted le x ys

/-- Stable sort by a boolean comparison; Python's `sorted` is also stable,
so for a total preorder the two agree exactly. -/
def sortBy (le : α → α → Bool) : List α → List α
  | [] => []
  | x :: xs => insSorted le x (sortBy le xs)

/-- Lines 93-100: the iteration order of the rendered rows — the keys of
the definition, sorted by `sortKey` when `"__re-sort__"` is truthy, with
the `"__re-sort__"` pseudo-key itself skipped by the loop. -/
def tableRowKeys (contents : List (String × Value)) : List String :=
  let allKeys := contents.map Prod.fst
  let allKeys :=
    if ((dictFind contents "__re-sort__").getD (Value.bool false)).truthy then
      sortBy keyLe allKeys
    else allKeys
  allKeys.filter (fun k => k != "__re-sort__")

/-- Lines 102-110: one row per key — left cell the key substituted in the
`"left"` scope, right cell the looked-up value substituted in `"right"`. -/
def rowFor (ms : MacroSet) (contents : List (String × Value)) (k : String) : String × String :=
  (macroSubstitute ms k "left",
   macroSubstitute ms ((dictFind contents k).getD Value.null).asStr "right")

/-- The `[left, right]` rows passed to `table.add_row`, in loop order. -/
def tableRows (ms : MacroSet) (contents : List (String × Value)) : List (String × String) :=
  (tableRowKeys contents).map (rowFor ms contents)

/-- Split a string into lines at newline characters (Python `split("\n")`). -/
def splitLinesAux : List Char → List Char → List String
  | [], acc => [String.mk acc.reverse]
  | '\n' :: rest, acc => String.mk acc.reverse :: splitLinesAux rest []
  | c :: rest, acc => splitLinesAux rest (c :: acc)

/-- All lines of a string. -/
def splitLines (s : String) : List String :=
  splitLinesAux s.data []

/-- A run of identical characters (`"-" * n`, padding, rule lines). -/
def charRun (c : Char) (n : Nat) : String :=
  String.mk (List.replicate n c)

/-- Modelled from the spec: the external `prettytable` collaborator's
`get_string()` for the configuration the source sets up — two columns,
`header = False`, `hrules = ALL` (a rule line between every row), both
columns left-aligned, automatic widths.  (`prettytable` is a third-party
library, not part of this repository.) -/
def tableString (rows : List (String × String)) : String :=
  let w1 := rows.foldl (fun m r => max m r.1.length) 0
  let w2 := rows.foldl (fun m r => max m r.2.length) 0
  let rule := "+" ++ charRun '-' (w1 + 2) ++ "+" ++ charRun '-' (w2 + 2) ++ "+"
  let cell := fun (s : String) (w : Nat) => " " ++ s ++ charRun ' ' (w - s.length) ++ " "
  let line := fun (r : String × String) => "|" ++ cell r.1 w1 ++ "|" ++ cell r.2 w2 ++ "|"
  String.intercalate "\n" (rule :: rows.foldr (fun r acc => line r :: rule :: acc) [])

/-- Lines 83-84: the placeholder for a falsy (null or empty) definition. -/
def placeholder (name : String) : String :=
  "\n**Table <" ++ name ++ "> has no entries**\n"

/-- `Conventor.get_rst_table`: placeholder for falsy definitions, else the
rendered rows wrapped in a `.. table::` directive with every line of the
tabular text indented by four spaces. -/
def get_rst_table (ms : MacroSet) (name : String) (contents : Value) : String :=
  if contents.truthy = false then placeholder name
  else
    let body := tableString (tableRows ms contents.entriesD)
    ".. table::\n    :widths: auto\n\n" ++
      String.join ((splitLines body).map (fun row => "    " ++ row ++ "\n"))

/-! ## IndexComposer: `Conventor.get_index_rst` (lines 119-153) -/

/-- One entry of `self.sections`, with the fields the code `get`s.  The
source reads YAML mappings; `hidden` is its truthiness
(`section.get("hidden", False)`), absent fields are `none`. -/
structure SectionR where
  title : Option String
  anchor : Option String
  contents : Option String
  hidden : Bool

/-- The truthiness of `anchor` in `if anchor:` — present and non-empty. -/
def anchorTruthy : Option String → Bool
  | some a => a != ""
  | none => false

/-- `max(map(len, title.split("\n")))`: the longest line of the
(substituted) title. -/
def maxLineLen (s : String) : Nat :=
  (splitLines s).foldl (fun m l => max m l.length) 0

/-- The text one section contributes to the index (`none` = the
warn-and-skip of a section missing `title` or `contents`), mirroring the
`output +=` sequence of lines 137-151. -/
def sectionFragment (ms : MacroSet) (s : SectionR) : Option String :=
  match s.title, s.contents with
  | some title0, some contents0 =>
    let title := macroSubstitute ms title0 "title"
    let contents := macroSubstitute ms contents0 "contents"
    let w := maxLineLen title
    let head :=
      if s.hidden then ""
      else
        "\n" ++
        (if anchorTruthy s.anchor then ".. _" ++ s.anchor.getD "" ++ ":" ++ "\n\n" else "") ++
        charRun '-' w ++ "\n" ++ title ++ "\n" ++ charRun '-' w ++ "\n\n"
    some (head ++ contents)
  | _, _ => none

/-- `Conventor.get_index_rst`: concatenate the fragments in section order,
skipping the malformed sections. -/
def get_index_rst (ms : MacroSet) (sections : List SectionR) : String :=
  sections.foldl (fun out s => out ++ (sectionFragment ms s).getD "") ""

/-! ## Paths: the lexical model of `pathlib` used by Loader and Publisher -/

/-- Split on `/`, keeping empty pieces for now. -/
def splitSlashAux : List Char → List Char → List String
  | [], acc => [String.mk acc.reverse]
  | '/' :: rest, acc => String.mk acc.reverse :: splitSlashAux rest []
  | c :: rest, acc => splitSlashAux rest (c :: acc)

/-- Parse a path string: absolute flag and its components (empty and `.`
pieces dropped, as `pathlib` normalises them). -/
def splitPath (s : String) : Bool × List String :=
  let isAbs := match s.data with
    | '/' :: _ => true
    | _ => false
  (isAbs, (splitSlashAux s.data []).filter (fun c => c != "" && c != "."))

/-- Lexical `Path.resolve` on components of an absolute path: `..` pops
the previous component (staying at the root when there is none). -/
def resolveComps (comps : List String) : List String :=
  comps.foldl (fun acc c => if c = ".." then acc.dropLast else acc ++ [c]) []

/-- `(base / entry).resolve()` for an absolute, already-resolved `base`:
an absolute `entry` replaces `base` entirely, as `pathlib`'s `/` does. -/
def resolveUnder (base : List String) (entry : String) : List String :=
  let p := splitPath entry
  if p.1 then resolveComps p.2 else resolveComps (base ++ p.2)

/-- `base in path.parents` for resolved absolute paths: `base` is a
proper prefix of `path`. -/
def properUnder (base p : List String) : Bool :=
  decide (base.length < p.length) && (p.take base.length == base)

/-- `Path.suffix` of a file name: the final dot-extension, empty when the
only dot is leading or trailing. -/
def splitAtLastDot : List Char → Option (List Char × List Char)
  | [] => none
  | c :: cs =>
    match splitAtLastDot cs with
    | some (before, after) => some (c :: before, after)
    | none => if c = '.' then some ([], cs) else none

/-- `Path.suffix` (of a path's last component). -/
def suffixOf (name : String) : String :=
  match splitAtLastDot name.data with
  | some (before, after) =>
    if before.isEmpty || after.isEmpty then "" else String.mk ('.' :: after)
  | none => ""

/-- `Path.stem` (of a path's last component). -/
def stemOf (name : String) : String :=
  match splitAtLastDot name.data with
  | some (before, after) =>
    if before.isEmpty || after.isEmpty then name else String.mk before
  | none => name

/-- Last component of a path. -/
def lastComp (p : List String) : String :=
  p.getLast?.getD ""

/-! ## Loader: `Conventor.__init__` (lines 20-50) -/

/-- The warnings `logger.warning` emits (tagged by the offending item). -/
inductive Warn where
  | includeNotYaml (entry : String)
  | includeEscapes (entry : String)
  | tableIsIndex
  | tableEscapes (name : String)
  | emptySection
  deriving DecidableEq

/-- The fatal errors of loading: uncaught `KeyError` on the three `pop`s,
and failures around an included file (unreadable, or not a mapping — the
`.items()` call).  Malformed YAML cannot be represented in the parsed-file
model and is likewise fatal in the source. -/
inductive LoadError where
  | missingInclude
  | badIncludeList
  | cannotOpen (path : List String)
  | includeNotMapping (path : List String)
  | missingMacros
  | missingSections

/-- The file system: resolved absolute path of a YAML file to its parsed
content. -/
def FileSys : Type :=
  List (List String × Value)

/-- `yaml.safe_load(open(path))` for an existing file. -/
def fsRead (fs : FileSys) (p : List String) : Option Value :=
  (fs.find? (fun e => e.1 == p)).map (fun e => e.2)

/-- Decode the `include` value as the list of path strings the loop
iterates (a non-list or non-string entry fails the iteration/`Path`
construction in the source). -/
def asStrListAux : List Value → Option (List String)
  | [] => some []
  | Value.str s :: rest => (asStrListAux rest).map (fun l => s :: l)
  | _ => none

/-- Decode a parsed value into a string list, `none` otherwise. -/
def asStrList : Value → Option (List String)
  | Value.list items => asStrListAux items
  | _ => none

/-- The evolving loader state: the root mapping being extended, and the
warnings logged so far. -/
structure IncState where
  data : List (String × Value)
  warns : List Warn

/-- One iteration of the include loop (lines 24-46): resolve the entry,
warn on a non-`.yaml` suffix (the source does *not* skip here), skip with
a warning when the path escapes the root directory, otherwise parse the
file and merge its items under `"<stem>/"`-qualified keys. -/
def includeStep (fs : FileSys) (rootDir : List String) (st : IncState) (entry : String) :
    Except LoadError IncState :=
  let ipath := resolveUnder rootDir entry
  let w1 :=
    if suffixOf (lastComp ipath) != ".yaml" then st.warns ++ [Warn.includeNotYaml entry]
    else st.warns
  if properUnder rootDir ipath = false then
    Except.ok ⟨st.data, w1 ++ [Warn.includeEscapes entry]⟩
  else
    match fsRead fs ipath with
    | none => Except.error (LoadError.cannotOpen ipath)
    | some (Value.dict items) =>
      Except.ok
        ⟨mergeDicts st.data (items.map (fun kv => (stemOf (lastComp ipath) ++ "/" ++ kv.1, kv.2))),
         w1⟩
    | some _ => Except.error (LoadError.includeNotMapping ipath)

/-- The include loop over all entries. -/
def processIncludes (fs : FileSys) (rootDir : List String) :
    List String → IncState → Except LoadError IncState
  | [], st => Except.ok st
  | e :: rest, st =>
    match includeStep fs rootDir st e with
    | Except.error err => Except.error err
    | Except.ok st2 => processIncludes fs rootDir rest st2

/-- What loading leaves on the object: `self.macros`, `self.sections`,
`self.tables`, plus the warnings logged on the way. -/
structure LoadResult where
  macros : Value
  sections : Value
  tables : List (String × Value)
  warns : List Warn

/-- `Conventor.__init__` on an already-parsed root document: pop
`include` (fatal when absent — no default is passed), run the include
loop, then pop `macros` and `sections` (each fatal when absent); what
remains is the table namespace.  `rootDir` is `input_path.parent`. -/
def load (fs : FileSys) (rootDir : List String) (rootDoc : List (String × Value)) :
    Except LoadError LoadResult :=
  match popKey "include" rootDoc with
  | none => Except.error LoadError.missingInclude
  | some (incv, d0) =>
    match asStrList incv with
    | none => Except.error LoadError.badIncludeList
    | some entries =>
      match processIncludes fs (resolveComps rootDir) entries ⟨d0, []⟩ with
      | Except.error err => Except.error err
      | Except.ok st =>
        match popKey "macros" st.data with
        | none => Except.error LoadError.missingMacros
        | some (m, d1) =>
          match popKey "sections" d1 with
          | none => Except.error LoadError.missingSections
          | some (s, d2) => Except.ok ⟨m, s, d2, st.warns⟩

/-! ## Publisher: `Conventor.process` (lines 52-80) -/

/-- One iteration of the table loop (lines 53-71): skip (with a warning)
a table named `index`; otherwise resolve `output_dir / "<name>.rst"`,
warn — without skipping — when it escapes the resolved output directory,
and write the rendered table there.  The write target is the resolved
destination (the OS resolves the same path at write time; no symlinks in
the model). -/
def tableStep (ms : MacroSet) (outputDir : List String) (name : String) (contents : Value) :
    List Warn × Option (List String × String) :=
  if name = "index" then ([Warn.tableIsIndex], none)
  else
    let dest := resolveUnder (resolveComps outputDir) (name ++ ".rst")
    let ws := if properUnder (resolveComps outputDir) dest = false then [Warn.tableEscapes name] else []
    (ws, some (dest, get_rst_table ms name contents))

/-- `Conventor.process` as the list of file writes it performs, in order,
plus the warnings: one `<name>.rst` per table, then `index.rst`.  The
final `publish_file` call (docutils, producing `index.html`) is an
external collaborator and is not modelled. -/
def process (ms : MacroSet) (sections : List SectionR) (tables : List (String × Value))
    (outputDir : List String) : List Warn × List (List String × String) :=
  let folded := tables.foldl
    (fun acc kv =>
      let r := tableStep ms outputDir kv.1 kv.2
      (acc.1 ++ r.1, acc.2 ++ (match r.2 with
        | some w => [w]
        | none => [])))
    ([], [])
  (folded.1, folded.2 ++ [(resolveComps outputDir ++ ["index.rst"], get_index_rst ms sections)])

/-! ## Spec-worded refinement definition and concrete example inputs -/

/-- The sort key as the spec and claim C2 word it: strip every character
that is not a letter, digit, or underscore — keeping underscores.  Stated
only to compare with the source's `sortKey`. -/
def sortKeySpec (k : String) : String :=
  String.mk (k.data.filter (fun c => c.isAlphanum || c = '_'))

/-- A MacroSet with no rules at all (substitution is the identity). -/
def msEmpty : MacroSet :=
  ⟨[], []⟩

/-- The table of claim C2's example: `__re-sort__` plus keys `B-2`,
`a_1`, `A 0` in that insertion order. -/
def exResort : List (String × Value) :=
  [("__re-sort__", Value.bool true),
   ("B-2", Value.str "x1"), ("a_1", Value.str "x2"), ("A 0", Value.str "x3")]

/-- A re-sorted table distinguishing the two sort-key readings: under the
code's key (underscores stripped) `aa` sorts before `a_b`; under the
spec's key (underscores kept) `a_b` would sort before `aa`. -/
def exUnderscore : List (String × Value) :=
  [("__re-sort__", Value.bool true), ("a_b", Value.str "1"), ("aa", Value.str "2")]

/-- File system for claim C3's failing input: a non-YAML file inside the
root directory, itself a well-formed mapping. -/
def fsTxt : FileSys :=
  [(["root", "notes.txt"], Value.dict [("k", Value.str "v")])]

/-- Root document for claim C3's failing input: it includes `notes.txt`. -/
def docTxt : List (String × Value) :=
  [("include", Value.list [Value.str "notes.txt"]),
   ("macros", Value.dict []), ("sections", Value.list [])]

/-- File system for claim C5's witness: one includable mapping file. -/
def fsInc : FileSys :=
  [(["root", "inc.yaml"], Value.dict [("a", Value.str "b")])]

/-! # Theorems -/

/-! ## Ordering lemmas for the sort comparison -/

theorem charLe_total (a : List Char) : ∀ b, charLe a b = true ∨ charLe b a = true := by
  induction a with
  | nil => intro b; left; rfl
  | cons x xs ih =>
    intro b
    cases b with
    | nil => right; rfl
    | cons y ys =>
      rcases Nat.lt_trichotomy x.toNat y.toNat with h | h | h
      · left; simp [charLe, h]
      · have h1 : ¬ x.toNat < y.toNat := by omega
        have h2 : ¬ y.toNat < x.toNat := by omega
        rcases ih ys with hc | hc
        · left; simp [charLe, h1, h2, hc]
        · right; simp [charLe, h1, h2, hc]
      · right; simp [charLe, h]

theorem charLe_trans (a : List Char) :
    ∀ b c, charLe a b = true → charLe b c = true → charLe a c = true := by
  induction a with
  | nil => intro b c _ _; rfl
  | cons x xs ih =>
    intro b c hab hbc
    cases b with
    | nil => simp [charLe] at hab
    | cons y ys =>
      cases c with
      | nil => simp [charLe] at hbc
      | cons z zs =>
        simp only [charLe] at hab hbc ⊢
        by_cases hxy : x.toNat < y.toNat
        · by_cases hyz : y.toNat < z.toNat
          · rw [if_pos (Nat.lt_trans hxy hyz)]
          · by_cases hzy : z.toNat < y.toNat
            · rw [if_neg hyz, if_pos hzy] at hbc
              exact absurd hbc (by simp)
            · rw [if_pos (by omega : x.toNat < z.toNat)]
        · by_cases hyx : y.toNat < x.toNat
          · rw [if_neg hxy, if_pos hyx] at hab
            exact absurd hab (by simp)
          · rw [if_neg hxy, if_neg hyx] at hab
            by_cases hyz : y.toNat < z.toNat
            · rw [if_pos (by omega : x.toNat < z.toNat)]
            · by_cases hzy : z.toNat < y.toNat
              · rw [if_neg hyz, if_pos hzy] at hbc
                exact absurd hbc (by simp)
              · rw [if_neg hyz, if_neg hzy] at hbc
                rw [if_neg (by omega : ¬ x.toNat < z.toNat),
                    if_neg (by omega : ¬ z.toNat < x.toNat)]
                exact ih ys zs hab hbc

theorem keyLe_total (a b : String) : keyLe a b = true ∨ keyLe b a = true :=
  charLe_total (sortKey a).data (sortKey b).data

theorem keyLe_trans (a b c : String) :
    keyLe a b = true → keyLe b c = true → keyLe a c = true :=
  charLe_trans (sortKey a).data (sortKey b).data (sortKey c).data

/-! ## The stable sort is a sorted permutation -/

theorem insSorted_perm (le : α → α → Bool) (x : α) (l : List α) :
    (insSorted le x l).Perm (x :: l) := by
  induction l with
  | nil => exact List.Perm.refl _
  | cons y ys ih =>
    simp only [insSorted]
    by_cases h : le x y = true
    · rw [if_pos h]
    · rw [if_neg h]
      exact (ih.cons y).trans (List.Perm.swap x y ys)

theorem sortBy_perm (le : α → α → Bool) (l : List α) : (sortBy le l).Perm l := by
  induction l with
  | nil => exact List.Perm.refl _
  | cons x xs ih =>
    exact (insSorted_perm le x (sortBy le xs)).trans (ih.cons x)

theorem insSorted_pairwise (le : α → α → Bool)
    (htot : ∀ a b, le a b = true ∨ le b a = true)
    (htr : ∀ a b c, le a b = true → le b c = true → le a c = true)
    (x : α) (l : List α) (hl : l.Pairwise (fun a b => le a b = true)) :
    (insSorted le x l).Pairwise (fun a b => le a b = true) := by
  induction l with
  | nil => simp [insSorted]
  | cons y ys ih =>
    rcases List.pairwise_cons.mp hl with ⟨hy, hys⟩
    simp only [insSorted]
    by_cases h : le x y = true
    · rw [if_pos h]
      refine List.pairwise_cons.mpr ⟨?_, hl⟩
      intro z hz
      rcases List.mem_cons.mp hz with rfl | hz2
      · exact h
      · exact htr x y z h (hy z hz2)
    · rw [if_neg h]
      have hyx : le y x = true := (htot x y).resolve_left h
      refine List.pairwise_cons.mpr ⟨?_, ih hys⟩
      intro z hz
      rcases List.mem_cons.mp ((insSorted_perm le x ys).mem_iff.mp hz) with rfl | hz2
      · exact hyx
      · exact hy z hz2

theorem sortBy_pairwise (le : α → α → Bool)
    (htot : ∀ a b, le a b = true ∨ le b a = true)
    (htr : ∀ a b c, le a b = true → le b c = true → le a c = true)
    (l : List α) : (sortBy le l).Pairwise (fun a b => le a b = true) := by
  induction l with
  | nil => simp [sortBy]
  | cons x xs ih => exact insSorted_pairwise le htot htr x (sortBy le xs) ih

/-! ## Dictionary lookup lemmas -/

theorem dictFind_cons_self (k : String) (v : α) (tl : List (String × α)) :
    dictFind ((k, v) :: tl) k = some v := by
  simp [dictFind, List.find?]

theorem dictFind_cons_ne (k k2 : String) (v : α) (tl : List (String × α)) (h : k2 ≠ k) :
    dictFind ((k, v) :: tl) k2 = dictFind tl k2 := by
  simp only [dictFind, List.find?]
  have : ((k, v).1 == k2) = false := by
    simp only [beq_eq_false_iff_ne]
    exact fun hk => h hk.symm
  rw [this]

theorem rowFor_cons_ne (ms : MacroSet) (k k2 : String) (v : Value)
    (tl : List (String × Value)) (h : k2 ≠ k) :
    rowFor ms ((k, v) :: tl) k2 = rowFor ms tl k2 := by
  simp only [rowFor, dictFind_cons_ne k k2 v tl h]

/-- The loop of lines 98-110 in the unsorted case, as a function of the
dictionary: under unique keys, looking each key back up yields exactly the
corresponding entry. -/
theorem rows_lookup_eq (ms : MacroSet) (contents : List (String × Value))
    (h2 : (contents.map Prod.fst).Nodup) :
    ((contents.map Prod.fst).filter (fun k => k != "__re-sort__")).map (rowFor ms contents) =
    (contents.filter (fun kv => kv.1 != "__re-sort__")).map
      (fun kv => (macroSubstitute ms kv.1 "left", macroSubstitute ms kv.2.asStr "right")) := by
  induction contents with
  | nil => rfl
  | cons kv tl ih =>
    obtain ⟨k, v⟩ := kv
    simp only [List.map_cons, List.nodup_cons] at h2 ⊢
    obtain ⟨hk, htl⟩ := h2
    have htail :
        ((tl.map Prod.fst).filter (fun k2 => k2 != "__re-sort__")).map (rowFor ms ((k, v) :: tl)) =
        ((tl.map Prod.fst).filter (fun k2 => k2 != "__re-sort__")).map (rowFor ms tl) := by
      refine List.map_congr_left ?_
      intro k2 hk2
      have hmem : k2 ∈ tl.map Prod.fst := (List.mem_filter.mp hk2).1
      exact rowFor_cons_ne ms k k2 v tl (fun he => hk (he ▸ hmem))
    cases hres : (k != "__re-sort__") with
    | true =>
      simp only [List.filter_cons, hres, if_true, List.map_cons]
      rw [htail, ih htl]
      have hrow : rowFor ms ((k, v) :: tl) k =
          (macroSubstitute ms k "left", macroSubstitute ms v.asStr "right") := by
        simp only [rowFor, dictFind_cons_self]
        rfl
      rw [hrow]
    | false =>
      simp only [List.filter_cons, hres, Bool.false_eq_true, if_false]
      rw [htail, ih htl]

/-! ## Claim theorems -/

/-- C1.  Macro substitution applies every rule of the merged rule set
sequentially, each `re.sub` operating on the previous rule's output and in
the mapping's iteration order: the rule set `{a → b, b → c}` applied to
`"a"` yields `"c"` (not `"b"`), and reversing the iteration order to
`{b → c, a → b}` yields `"b"` — sequential, order-sensitive substitution,
in every scope. -/
theorem macroSubstitute_sequential_order :
    (∀ scope, macroSubstitute ⟨[("a", "b"), ("b", "c")], []⟩ "a" scope = "c") ∧
    (∀ scope, macroSubstitute ⟨[("b", "c"), ("a", "b")], []⟩ "a" scope = "b") :=
  ⟨fun _ => rfl, fun _ => rfl⟩

/-- C9.  A MacroSet with only the `"everywhere"` sub-mapping and no
scope-named sub-mappings substitutes identically in every scope. -/
theorem macroSubstitute_scope_independent (ev : List (String × String))
    (text s1 s2 : String) :
    macroSubstitute ⟨ev, []⟩ text s1 = macroSubstitute ⟨ev, []⟩ text s2 :=
  rfl

/-- C2, counterexample.  The claim's sort key keeps underscores
(`sortKeySpec`), but the source's `re.sub("[\W_]+", "", key)` strips them:
`"a_1"` gets sort key `"a1"`, not `"a_1"`; and on the table with keys
`a_b`, `aa` the rendered order is `aa, a_b` (code keys `"ab" > "aa"`),
while the claim's underscore-keeping key would order `a_b` first
(`"a_b" < "aa"` at code point `_ < a`). -/
theorem sortKey_underscore_counterexample :
    sortKey "a_1" = "a1" ∧
    sortKeySpec "a_1" = "a_1" ∧
    tableRows msEmpty exUnderscore = [("aa", "2"), ("a_b", "1")] ∧
    keyLe "a_b" "aa" = false ∧
    charLe (sortKeySpec "a_b").data (sortKeySpec "aa").data = true :=
  ⟨by decide, by decide, by decide, by decide, by decide⟩

/-- C2, amended.  When `__re-sort__` is truthy the rendered row order is
the keys sorted ascending (case-sensitive, by code point) by the sort key
obtained from the raw key before macro substitution by stripping every
character that is not a letter or digit — underscores are stripped too.
The row-key order is sorted under that comparison and is a permutation of
the input keys minus the pseudo-key; the claim's example keys `B-2`,
`a_1`, `A 0` indeed render in the order `A 0`, `B-2`, `a_1`. -/
theorem tableRows_resort_sorted (ms : MacroSet) (contents : List (String × Value))
    (h : ((dictFind contents "__re-sort__").getD (Value.bool false)).truthy = true) :
    tableRows ms contents = (tableRowKeys contents).map (rowFor ms contents) ∧
    (tableRowKeys contents).Pairwise (fun a b => keyLe a b = true) ∧
    (tableRowKeys contents).Perm
      ((contents.map Prod.fst).filter (fun k => k != "__re-sort__")) ∧
    tableRows msEmpty exResort = [("A 0", "x3"), ("B-2", "x1"), ("a_1", "x2")] := by
  have hkeys : tableRowKeys contents =
      (sortBy keyLe (contents.map Prod.fst)).filter (fun k => k != "__re-sort__") := by
    simp [tableRowKeys, h]
  refine ⟨rfl, ?_, ?_, by decide⟩
  · rw [hkeys]
    exact List.Pairwise.sublist (List.filter_sublist _)
      (sortBy_pairwise keyLe keyLe_total keyLe_trans _)
  · rw [hkeys]
    exact (sortBy_perm keyLe _).filter _

/-- Witness for `tableRows_resort_sorted` at the claim's example table. -/
theorem tableRows_resort_sorted_witness :
    tableRows msEmpty exResort = (tableRowKeys exResort).map (rowFor msEmpty exResort) ∧
    (tableRowKeys exResort).Pairwise (fun a b => keyLe a b = true) ∧
    (tableRowKeys exResort).Perm
      ((exResort.map Prod.fst).filter (fun k => k != "__re-sort__")) ∧
    tableRows msEmpty exResort = [("A 0", "x3"), ("B-2", "x1"), ("a_1", "x2")] :=
  tableRows_resort_sorted msEmpty exResort (by decide)

/-- C8.  With `__re-sort__` falsy or absent, the rendered rows are exactly
the input mapping's entries in insertion order, one row per key except the
pseudo-key, left cell the key in the `"left"` scope, right cell the value
in the `"right"` scope. -/
theorem tableRows_insertion_order (ms : MacroSet) (contents : List (String × Value))
    (h1 : ((dictFind contents "__re-sort__").getD (Value.bool false)).truthy = false)
    (h2 : (contents.map Prod.fst).Nodup) :
    tableRows ms contents =
      (contents.filter (fun kv => kv.1 != "__re-sort__")).map
        (fun kv => (macroSubstitute ms kv.1 "left", macroSubstitute ms kv.2.asStr "right")) := by
  have hkeys : tableRowKeys contents =
      (contents.map Prod.fst).filter (fun k => k != "__re-sort__") := by
    simp [tableRowKeys, h1]
  rw [tableRows, hkeys]
  exact rows_lookup_eq ms contents h2

/-- Witness for `tableRows_insertion_order` on a two-row table. -/
theorem tableRows_insertion_order_witness :
    tableRows msEmpty [("k1", Value.str "v1"), ("k2", Value.str "v2")] =
      [("k1", "v1"), ("k2", "v2")] :=
  (tableRows_insertion_order msEmpty [("k1", Value.str "v1"), ("k2", Value.str "v2")]
    (by decide) (by decide)).trans (by decide)

/-- C10.  An empty (non-null) mapping renders the same no-entries
placeholder, containing the table's name, as a null definition. -/
theorem empty_table_placeholder (ms : MacroSet) (name : String) :
    get_rst_table ms name (Value.dict []) = get_rst_table ms name Value.null ∧
    get_rst_table ms name Value.null = "\n**Table <" ++ name ++ "> has no entries**\n" :=
  ⟨rfl, rfl⟩

/-- C6.  For a section with title and contents present, the fragment is:
if hidden, exactly the substituted contents; if not hidden, a blank line,
then — only when a (truthy) anchor is present — the anchor-reference
marker line and a blank line, then a dash rule as long as the longest line
of the substituted title, the title, another such rule, a blank line, and
the substituted contents.  Concretely, hidden `{title: T, contents: C}`
composes to exactly `"C"`, and un-hidden to a blank line, one-dash rule,
`T`, one-dash rule, blank line, `C`. -/
theorem index_fragment_structure :
    (∀ (ms : MacroSet) (t c : String) (a : Option String) (hid : Bool),
      sectionFragment ms ⟨some t, a, some c, hid⟩ =
        some ((if hid then ""
          else
            "\n" ++
            (if anchorTruthy a then ".. _" ++ a.getD "" ++ ":" ++ "\n\n" else "") ++
            charRun '-' (maxLineLen (macroSubstitute ms t "title")) ++ "\n" ++
            macroSubstitute ms t "title" ++ "\n" ++
            charRun '-' (maxLineLen (macroSubstitute ms t "title")) ++ "\n\n") ++
          macroSubstitute ms c "contents")) ∧
    get_index_rst msEmpty [⟨some "T", none, some "C", true⟩] = "C" ∧
    get_index_rst msEmpty [⟨some "T", none, some "C", false⟩] = "\n-\nT\n-\n\nC" :=
  ⟨fun _ _ _ _ _ => rfl, by decide, by decide⟩

/-! ## Loader key-tracking lemmas -/

theorem asStrList_map (entries : List String) :
    asStrList (Value.list (entries.map Value.str)) = some entries := by
  simp only [asStrList]
  induction entries with
  | nil => rfl
  | cons e rest ih => simp [asStrListAux, List.map_cons, ih]

theorem mem_keys_mergeDicts (a b : List (String × α)) (k : String)
    (h : k ∈ a.map Prod.fst) : k ∈ (mergeDicts a b).map Prod.fst := by
  simp only [mergeDicts, List.map_append]
  refine List.mem_append.mpr (Or.inl ?_)
  have : (a.map (fun kv =>
      match dictFind b kv.1 with
      | some v => (kv.1, v)
      | none => kv)).map Prod.fst = a.map Prod.fst := by
    rw [List.map_map]
    refine List.map_congr_left ?_
    intro kv _
    cases hf : dictFind b kv.1 <;> simp [hf]
  rw [this]
  exact h

theorem popKey_isSome (k : String) (d : List (String × α)) (h : k ∈ d.map Prod.fst) :
    ∃ v d2, popKey k d = some (v, d2) := by
  induction d with
  | nil => simp at h
  | cons kv tl ih =>
    obtain ⟨k2, v2⟩ := kv
    by_cases he : k2 = k
    · exact ⟨v2, tl, by simp [popKey, he]⟩
    · have hm : k ∈ tl.map Prod.fst := by
        rw [List.map_cons] at h
        rcases List.mem_cons.mp h with he2 | hm
        · exact absurd he2.symm he
        · exact hm
      obtain ⟨v, d2, hd⟩ := ih hm
      exact ⟨v, (k2, v2) :: d2, by simp [popKey, he, hd]⟩

theorem popKey_mem_rest (k k2 : String) (hne : k2 ≠ k) :
    ∀ (d : List (String × α)) (v : α) (d2 : List (String × α)),
      popKey k d = some (v, d2) → k2 ∈ d.map Prod.fst → k2 ∈ d2.map Prod.fst := by
  intro d
  induction d with
  | nil => intro v d2 hpop _; simp [popKey] at hpop
  | cons kv tl ih =>
    intro v d2 hpop hmem
    obtain ⟨k3, v3⟩ := kv
    rw [List.map_cons] at hmem
    by_cases he : k3 = k
    · rw [popKey, if_pos he] at hpop
      simp only [Option.some.injEq, Prod.mk.injEq] at hpop
      obtain ⟨-, rfl⟩ := hpop
      rcases List.mem_cons.mp hmem with he2 | hm
      · exact absurd (he2.trans he) hne
      · exact hm
    · rw [popKey, if_neg he] at hpop
      cases hrec : popKey k tl with
      | none => rw [hrec] at hpop; simp at hpop
      | some r =>
        obtain ⟨v4, d4⟩ := r
        rw [hrec] at hpop
        simp only [Option.map_some', Option.some.injEq, Prod.mk.injEq] at hpop
        obtain ⟨-, hd⟩ := hpop
        subst hd
        rw [List.map_cons]
        rcases List.mem_cons.mp hmem with he2 | hm
        · exact List.mem_cons.mpr (Or.inl he2)
        · exact List.mem_cons.mpr (Or.inr (ih v4 d4 hrec hm))

/-- The include loop succeeds — and loses no existing namespace key — as
long as every entry that passes the path-safety check names a readable
mapping file. -/
theorem processIncludes_ok (fs : FileSys) (rd : List String) (entries : List String)
    (h : ∀ e ∈ entries, properUnder rd (resolveUnder rd e) = true →
      ∃ items, fsRead fs (resolveUnder rd e) = some (Value.dict items)) :
    ∀ st : IncState, ∃ st2, processIncludes fs rd entries st = Except.ok st2 ∧
      ∀ k, k ∈ st.data.map Prod.fst → k ∈ st2.data.map Prod.fst := by
  induction entries with
  | nil => exact fun st => ⟨st, rfl, fun _ hk => hk⟩
  | cons e rest ih =>
    intro st
    have hrest := ih (fun e2 he2 => h e2 (List.mem_cons_of_mem e he2))
    by_cases hp : properUnder rd (resolveUnder rd e) = true
    · obtain ⟨items, hread⟩ := h e (List.mem_cons_self e rest) hp
      have hstep : includeStep fs rd st e = Except.ok
          ⟨mergeDicts st.data
            (items.map (fun kv =>
              (stemOf (lastComp (resolveUnder rd e)) ++ "/" ++ kv.1, kv.2))),
           if suffixOf (lastComp (resolveUnder rd e)) != ".yaml" then
             st.warns ++ [Warn.includeNotYaml e]
           else st.warns⟩ := by
        simp only [includeStep, hp, hread, Bool.true_eq_false, if_false]
      obtain ⟨st2, hrun, hkeys⟩ := hrest
        ⟨mergeDicts st.data
          (items.map (fun kv =>
            (stemOf (lastComp (resolveUnder rd e)) ++ "/" ++ kv.1, kv.2))),
         if suffixOf (lastComp (resolveUnder rd e)) != ".yaml" then
           st.warns ++ [Warn.includeNotYaml e]
         else st.warns⟩
      refine ⟨st2, ?_, ?_⟩
      · rw [processIncludes, hstep]
        exact hrun
      · intro k hk
        exact hkeys k (mem_keys_mergeDicts _ _ k hk)
    · have hp2 : properUnder rd (resolveUnder rd e) = false := by
        revert hp; cases properUnder rd (resolveUnder rd e) <;> simp
      have hstep : includeStep fs rd st e = Except.ok
          ⟨st.data,
           (if suffixOf (lastComp (resolveUnder rd e)) != ".yaml" then
              st.warns ++ [Warn.includeNotYaml e]
            else st.warns) ++ [Warn.includeEscapes e]⟩ := by
        simp only [includeStep, hp2, if_true]
      obtain ⟨st2, hrun, hkeys⟩ := hrest
        ⟨st.data,
         (if suffixOf (lastComp (resolveUnder rd e)) != ".yaml" then
            st.warns ++ [Warn.includeNotYaml e]
          else st.warns) ++ [Warn.includeEscapes e]⟩
      refine ⟨st2, ?_, hkeys⟩
      rw [processIncludes, hstep]
      exact hrun

/-! ## Remaining claim theorems -/

/-- C4.  An include entry whose resolved path is not inside the root
document's directory is skipped: it contributes only its warnings (the
path-escape warning, preceded by the extension warning when that also
applies) and no namespace keys, and the loop proceeds with the remaining
entries from an unchanged namespace. -/
theorem include_escape_skipped (fs : FileSys) (rootDir : List String) (e : String)
    (rest : List String) (data : List (String × Value)) (warns : List Warn)
    (h : properUnder rootDir (resolveUnder rootDir e) = false) :
    processIncludes fs rootDir (e :: rest) ⟨data, warns⟩ =
    processIncludes fs rootDir rest
      ⟨data, warns ++
        ((if suffixOf (lastComp (resolveUnder rootDir e)) != ".yaml" then
            [Warn.includeNotYaml e]
          else []) ++ [Warn.includeEscapes e])⟩ := by
  rw [processIncludes]
  simp only [includeStep, h, if_true]
  cases hs : suffixOf (lastComp (resolveUnder rootDir e)) != ".yaml" <;>
    simp [hs, List.append_assoc]

/-- Witness for `include_escape_skipped`: the spec's own example entry
`"../secret.yaml"` is skipped with just the escape warning and adds no
keys. -/
theorem include_escape_skipped_witness :
    processIncludes [] ["home", "user"] ["../secret.yaml"] ⟨[("x", Value.str "1")], []⟩ =
      Except.ok ⟨[("x", Value.str "1")], [Warn.includeEscapes "../secret.yaml"]⟩ := by
  rw [include_escape_skipped [] ["home", "user"] "../secret.yaml" []
    [("x", Value.str "1")] [] (by decide)]
  rfl

/-- C3.  The failing input of the claim: including `notes.txt` (wrong
extension, inside the root directory) logs the not-a-YAML-file warning
but still parses and merges the file — the namespace gains `notes/k` —
whereas the claim (and the warning's own text) says the entry is skipped
and contributes zero keys. -/
theorem include_wrong_ext_still_merged :
    load fsTxt ["root"] docTxt =
      Except.ok ⟨Value.dict [], Value.list [], [("notes/k", Value.str "v")],
        [Warn.includeNotYaml "notes.txt"]⟩ :=
  rfl

/-- C5, counterexample.  A root document that parses and contains
`macros` and `sections` but no `include` key is a fatal error (the
`pop("include")` has no default), contradicting the claim that only
missing `macros`/`sections` is fatal. -/
theorem load_missing_include_fatal :
    load [] ["root"] [("macros", Value.dict []), ("sections", Value.list [])] =
      Except.error LoadError.missingInclude :=
  rfl

/-- C5, amended.  Loading is fatal only for malformed input, a missing
`include`, `macros` or `sections` key, or an include entry (among those
passing the path check) that is unreadable or not a mapping: every root
document carrying all three keys whose checked include entries read as
mappings loads without a fatal error. -/
theorem load_succeeds_with_include (fs : FileSys) (rootDir : List String)
    (entries : List String) (m s : Value) (t : List (String × Value))
    (h : ∀ e ∈ entries,
      properUnder (resolveComps rootDir) (resolveUnder (resolveComps rootDir) e) = true →
      ∃ items, fsRead fs (resolveUnder (resolveComps rootDir) e) =
        some (Value.dict items)) :
    ∃ out, load fs rootDir
      (("include", Value.list (entries.map Value.str)) ::
        ("macros", m) :: ("sections", s) :: t) = Except.ok out := by
  obtain ⟨st2, hrun, hkeys⟩ := processIncludes_ok fs (resolveComps rootDir) entries h
    ⟨("macros", m) :: ("sections", s) :: t, []⟩
  obtain ⟨mv, d1, hm⟩ := popKey_isSome "macros" st2.data (hkeys "macros" (by simp))
  obtain ⟨sv, d2, hs⟩ := popKey_isSome "sections" d1
    (popKey_mem_rest "macros" "sections" (by decide) st2.data mv d1 hm
      (hkeys "sections" (by simp)))
  refine ⟨⟨mv, sv, d2, st2.warns⟩, ?_⟩
  have hpop : popKey "include"
      (("include", Value.list (entries.map Value.str)) ::
        ("macros", m) :: ("sections", s) :: t) =
      some (Value.list (entries.map Value.str),
        ("macros", m) :: ("sections", s) :: t) := rfl
  rw [load, hpop]
  simp only [asStrList_map, hrun, hm, hs]

/-- Witness for `load_succeeds_with_include`: one escaping entry (skipped)
and one good entry, plus a table key, load successfully. -/
theorem load_succeeds_with_include_witness :
    ∃ out, load fsInc ["root"]
      (("include", Value.list (["../x.yaml", "inc.yaml"].map Value.str)) ::
        ("macros", Value.dict []) :: ("sections", Value.list []) ::
        [("t1", Value.dict [])]) = Except.ok out := by
  refine load_succeeds_with_include fsInc ["root"] ["../x.yaml", "inc.yaml"]
    (Value.dict []) (Value.list []) [("t1", Value.dict [])] ?_
  intro e he hp
  rcases List.mem_cons.mp he with rfl | he2
  · exact absurd hp (by decide)
  · rcases List.mem_cons.mp he2 with rfl | he3
    · exact ⟨[("a", Value.str "b")], rfl⟩
    · simp at he3

/-- C7.  For any table not named `index`, the Publisher always attempts
the write of the rendered table at the resolved destination
`outputDir / "<name>.rst"`; when that destination is not inside the
resolved output directory it additionally logs the path-escape warning
(logged, not enforced), and when it is inside, no warning is logged. -/
theorem tableStep_escape_warn_and_write (ms : MacroSet) (outputDir : List String)
    (name : String) (contents : Value) (h : name ≠ "index") :
    (tableStep ms outputDir name contents).2 =
      some (resolveUnder (resolveComps outputDir) (name ++ ".rst"),
        get_rst_table ms name contents) ∧
    (tableStep ms outputDir name contents).1 =
      (if properUnder (resolveComps outputDir)
          (resolveUnder (resolveComps outputDir) (name ++ ".rst")) then []
       else [Warn.tableEscapes name]) := by
  rw [tableStep, if_neg h]
  cases hp : properUnder (resolveComps outputDir)
      (resolveUnder (resolveComps outputDir) (name ++ ".rst")) <;>
    simp [hp]

/-- Witness for `tableStep_escape_warn_and_write`: the escaping table name
`"../evil"` is warned about and still written (outside the output
directory); the in-bounds name `"good"` is written with no warning. -/
theorem tableStep_escape_warn_and_write_witness :
    ((tableStep msEmpty ["out"] "../evil" Value.null).2 =
        some (["evil.rst"], "\n**Table <../evil> has no entries**\n") ∧
      (tableStep msEmpty ["out"] "../evil" Value.null).1 =
        [Warn.tableEscapes "../evil"]) ∧
    ((tableStep msEmpty ["out"] "good" Value.null).2 =
        some (["out", "good.rst"], "\n**Table <good> has no entries**\n") ∧
      (tableStep msEmpty ["out"] "good" Value.null).1 = []) := by
  have h1 := tableStep_escape_warn_and_write msEmpty ["out"] "../evil" Value.null (by decide)
  have h2 := tableStep_escape_warn_and_write msEmpty ["out"] "good" Value.null (by decide)
  exact ⟨⟨h1.1.trans (by decide), h1.2.trans (by decide)⟩,
    ⟨h2.1.trans (by decide), h2.2.trans (by decide)⟩⟩

end Conventor
